import Mathlib

/-!
Verification of the static-analysis core of a multi-agent code reviewer:
the tree-sitter-based `CodeParser` (src/tools/code_parser.py) and the
text/tree analyzers (src/tools/analyzers.py).

Syntax trees produced by tree-sitter are modelled as a nested inductive
`Node`; each node carries its kind tag, the field name by which its parent
refers to it (tree-sitter's named fields), its start/end rows (0-based, as
in tree-sitter `start_point.row` / `end_point.row`), its source text, and
its ordered children.
-/

/-- A tree-sitter syntax node: kind tag, optional field label (the name by
which the parent refers to this child, e.g. "name" or "parameters"),
0-based start and end rows, decoded source text, ordered children. -/
inductive Node where
  | mk (kind : String) (fieldLabel : Option String) (startRow : Nat) (endRow : Nat)
       (text : String) (children : List Node)
deriving Repr

def Node.kind : Node → String
  | .mk k _ _ _ _ _ => k

def Node.fieldLabel : Node → Option String
  | .mk _ f _ _ _ _ => f

def Node.startRow : Node → Nat
  | .mk _ _ s _ _ _ => s

def Node.endRow : Node → Nat
  | .mk _ _ _ e _ _ => e

def Node.text : Node → String
  | .mk _ _ _ _ t _ => t

def Node.children : Node → List Node
  | .mk _ _ _ _ _ cs => cs

/-- tree-sitter's `child_by_field_name`: the first child carrying the given
field label. -/
def childByFieldName (n : Node) (f : String) : Option Node :=
  n.children.find? (fun c => c.fieldLabel == some f)

mutual

/-- The pre-order list of all nodes of a subtree, the root included. -/
def subtreeNodes : Node → List Node
  | .mk k f s e t cs => Node.mk k f s e t cs :: subtreeNodesList cs

/-- Pre-order node lists of a forest, concatenated. -/
def subtreeNodesList : List Node → List Node
  | [] => []
  | c :: cs => subtreeNodes c ++ subtreeNodesList cs
end

/-! ## Structural extractor (`CodeParser.extract_functions` / `extract_classes`) -/

/-- The function-like node kinds tested by `extract_functions` and
`get_complexity_metrics`. -/
def functionLikeKinds : List String :=
  ["function_definition", "function_declaration", "method_definition"]

/-- The class-like node kinds tested by `extract_classes`. -/
def classLikeKinds : List String :=
  ["class_definition", "class_declaration"]

structure FunctionSig where
  name : String
  args : List String
  start_line : Nat
  end_line : Nat
deriving Repr, DecidableEq

structure ClassSig where
  name : String
  start_line : Nat
  end_line : Nat
deriving Repr, DecidableEq

/-- The name extracted for a function-like or class-like node: the text of
its "name" field child, or the sentinel "anonymous". -/
def nodeNameOf (n : Node) : String :=
  match childByFieldName n "name" with
  | some nameNode => nameNode.text
  | none => "anonymous"

/-- The kinds of children of the "parameters" node kept as arguments. -/
def parameterKinds : List String :=
  ["identifier", "typed_parameter", "default_parameter"]

/-- The argument list extracted for a function-like node. -/
def funcArgsOf (n : Node) : List String :=
  match childByFieldName n "parameters" with
  | some paramsNode =>
      (paramsNode.children.filter (fun c => parameterKinds.contains c.kind)).map Node.text
  | none => []

/-- The FunctionSignature record `extract_functions` appends for a matched
node (rows are converted to 1-based lines). -/
def functionSigOf (n : Node) : FunctionSig :=
  ⟨nodeNameOf n, funcArgsOf n, n.startRow + 1, n.endRow + 1⟩

/-- The ClassSignature record `extract_classes` appends for a matched node. -/
def classSigOf (n : Node) : ClassSig :=
  ⟨nodeNameOf n, n.startRow + 1, n.endRow + 1⟩

mutual

/-- Embedding of `CodeParser.extract_functions`: pre-order traversal, one
FunctionSignature per function-like node, recursing into children
unconditionally. -/
def extract_functions : Node → List FunctionSig
  | .mk k f s e t cs =>
      (if functionLikeKinds.contains k then [functionSigOf (.mk k f s e t cs)] else [])
        ++ extractFunctionsList cs

def extractFunctionsList : List Node → List FunctionSig
  | [] => []
  | c :: cs => extract_functions c ++ extractFunctionsList cs

end

mutual

/-- Embedding of `CodeParser.extract_classes`. -/
def extract_classes : Node → List ClassSig
  | .mk k f s e t cs =>
      (if classLikeKinds.contains k then [classSigOf (.mk k f s e t cs)] else [])
        ++ extractClassesList cs

def extractClassesList : List Node → List ClassSig
  | [] => []
  | c :: cs => extract_classes c ++ extractClassesList cs

end

mutual

/-- The pre-order list of function-like nodes of a subtree. -/
def functionNodes : Node → List Node
  | .mk k f s e t cs =>
      (if functionLikeKinds.contains k then [Node.mk k f s e t cs] else [])
        ++ functionNodesList cs

def functionNodesList : List Node → List Node
  | [] => []
  | c :: cs => functionNodes c ++ functionNodesList cs

end

/-! ## Complexity scorer (`CodeParser.get_complexity_metrics`) -/

/-- The complexity-increasing node kinds (the union of the Python and JS
groups listed in `get_complexity_metrics`). -/
def complexity_node_types : List String :=
  ["if_statement", "elif_clause", "for_statement", "while_statement",
   "except_clause", "with_statement", "assert_statement", "boolean_operator",
   "do_statement", "case_clause", "catch_clause", "ternary_expression",
   "binary_expression"]

/-- The score increment `walk` applies at one node: 1 when the kind is
complexity-increasing, except that a `binary_expression` counts only when
its "operator" field child has text `&&` or `||`. -/
def complexityIncrement (n : Node) : Nat :=
  if complexity_node_types.contains n.kind then
    if n.kind == "binary_expression" then
      match childByFieldName n "operator" with
      | some op => if op.text == "&&" || op.text == "||" then 1 else 0
      | none => 0
    else 1
  else 0

mutual

/-- The total increment `walk` accumulates over a subtree. -/
def walkScore : Node → Nat
  | .mk k f s e t cs => complexityIncrement (.mk k f s e t cs) + walkScoreList cs

def walkScoreList : List Node → Nat
  | [] => 0
  | c :: cs => walkScore c + walkScoreList cs

end

/-- Embedding of `calculate_complexity`: base score 1 plus the walk total. -/
def calculate_complexity (n : Node) : Nat :=
  1 + walkScore n

/-- Python-dict assignment on an association list: overwrite the value in
place when the key exists, append otherwise. -/
def dictInsert (m : List (String × Nat)) (k : String) (v : Nat) : List (String × Nat) :=
  match m with
  | [] => [(k, v)]
  | (k₁, v₁) :: rest => if k₁ == k then (k₁, v) :: rest else (k₁, v₁) :: dictInsert rest k v

mutual

/-- Embedding of `find_funcs`: pre-order traversal threading the
complexity map, assigning `complexity_map[name] = calculate_complexity`
at every function-like node. -/
def findFuncs : Node → List (String × Nat) → List (String × Nat)
  | .mk k f s e t cs, m =>
      findFuncsList cs
        (if functionLikeKinds.contains k then
          dictInsert m (nodeNameOf (.mk k f s e t cs))
            (calculate_complexity (.mk k f s e t cs))
        else m)

def findFuncsList : List Node → List (String × Nat) → List (String × Nat)
  | [], m => m
  | c :: cs, m => findFuncsList cs (findFuncs c m)

end

/-- Embedding of `CodeParser.get_complexity_metrics` (`score_complexity` in
the spec): the name-keyed complexity map. -/
def get_complexity_metrics (t : Node) : List (String × Nat) :=
  findFuncs t []

/-- Spec-side predicate: the node kinds that count toward a function score,
with the refinement that a `binary_expression` counts only when its
operator child's text is a logical AND/OR token. -/
def isComplexityCounted (n : Node) : Bool :=
  complexity_node_types.contains n.kind &&
    (n.kind != "binary_expression" ||
      (match childByFieldName n "operator" with
       | some op => op.text == "&&" || op.text == "||"
       | none => false))

/-- Spec-side score: 1 plus the number of counted nodes in the subtree. -/
def specComplexityScore (n : Node) : Nat :=
  1 + (subtreeNodes n).countP (fun m => isComplexityCounted m)

/-! ## Source parser (`CodeParser.__init__` / `CodeParser.parse`) -/

/-- Python `str.lower()` over the ASCII range (the language names involved
are ASCII). -/
def strLower (s : String) : String :=
  ⟨s.data.map Char.toLower⟩

/-- Python `str.startswith`. -/
def strStartsWith (s pre : String) : Bool :=
  pre.data.isPrefixOf s.data

/-- Python `str.endswith`. -/
def strEndsWith (s suf : String) : Bool :=
  suf.data.isSuffixOf s.data

/-- The language keys registered by `CodeParser.__init__` (both grammar
libraries assumed to load): python, javascript, and typescript (the latter
mapped onto the JavaScript parser). -/
def registeredLanguages : List String :=
  ["python", "javascript", "typescript"]

/-- The grammar each language name resolves to in `CodeParser.__init__`:
python keeps its own grammar, javascript and typescript share the
JavaScript grammar, every other name resolves to nothing. -/
def grammarFor (language : String) : Option String :=
  if (strLower language) == "python" then some "python"
  else if (strLower language) == "javascript" then some "javascript"
  else if (strLower language) == "typescript" then some "javascript"
  else none

/-- Embedding of `CodeParser.parse`. The tree-sitter call itself is
external; its outcome on the given code string is abstracted as `raw`
(`none` models an internal parser error). `parse` returns `none` whenever
no parser is registered under the lowercased language name. -/
def parse (raw : Option Node) (language : String) : Option Node :=
  if registeredLanguages.contains (strLower language) then raw else none

/-! ## Findings -/

inductive Severity where
  | critical
  | warning
  | info
deriving Repr, DecidableEq

structure Finding where
  line_number : Nat
  issue : String
  severity : Severity
deriving Repr, DecidableEq

/-- The ASCII apostrophe, used inside finding messages. -/
def apos : String :=
  String.singleton (Char.ofNat 39)

/-! ## Pattern scanners (`check_hardcoded_secrets` / `check_sql_injection`)

The regular expressions of analyzers.py are embedded as explicit character
scanners.  All patterns involved are sequences of literals and character
classes separated by `\s*`, `\s+`, `.*` or bounded repetitions whose
follow-sets are disjoint from the class, so greedy scanning without
backtracking decides `re.search` exactly.  Case-insensitive matching
(`(?i)` / `re.IGNORECASE`) is embedded by lowercasing the line (the
patterns are ASCII). -/

/-- Python regex `\s` over ASCII: space, tab, newline, carriage return,
vertical tab, form feed. -/
def isPySpace (c : Char) : Bool :=
  c == ' ' || c == '\t' || c == '\n' || c == '\r' || c == Char.ofNat 11 || c == Char.ofNat 12

/-- The regex class `['"]`. -/
def isQuote (c : Char) : Bool :=
  c == Char.ofNat 39 || c == '"'

/-- The regex class `[a-zA-Z0-9_\-]` (secret values). -/
def isSecretValueChar (c : Char) : Bool :=
  c.isAlpha || c.isDigit || c == '_' || c == '-'

/-- The regex class `[a-zA-Z0-9_\-\.]` (bearer tokens). -/
def isBearerTokenChar (c : Char) : Bool :=
  c.isAlpha || c.isDigit || c == '_' || c == '-' || c == '.'

/-- The regex class `[0-9A-Z]` under `(?i)`, read on the lowercased line. -/
def isAwsKeyChar (c : Char) : Bool :=
  c.isDigit || c.isLower

/-- Matches the literal `pat` as a prefix of `cs` and returns the rest. -/
def dropPrefixChars : List Char → List Char → Option (List Char)
  | [], cs => some cs
  | _ :: _, [] => none
  | p :: ps, c :: cs => if p == c then dropPrefixChars ps cs else none

/-- `re.search` for a matcher `f`: does `f` accept some suffix position? -/
def searchPos (f : List Char → Bool) : List Char → Bool
  | [] => f []
  | c :: cs => f (c :: cs) || searchPos f cs

/-- The lowercased expansions of the alternation
`api_?key|access_?token|secret_?key|password|passwd|pwd`. -/
def secretKeywords : List String :=
  ["api_key", "apikey", "access_token", "accesstoken", "secret_key", "secretkey",
   "password", "passwd", "pwd"]

/-- The suffix `\s*=\s*['"][a-zA-Z0-9_\-]{20,}['"]` of the first secret
pattern, matched right after the keyword. -/
def secretAssignTail (cs : List Char) : Bool :=
  match cs.dropWhile isPySpace with
  | [] => false
  | c :: cs1 =>
      c == '=' &&
        (match cs1.dropWhile isPySpace with
         | [] => false
         | q :: cs2 =>
             isQuote q &&
               20 ≤ (cs2.takeWhile isSecretValueChar).length &&
               (match cs2.dropWhile isSecretValueChar with
                | r :: _ => isQuote r
                | [] => false))

/-- The first secret pattern anchored at a position of the lowered line. -/
def secretAssignAt (cs : List Char) : Bool :=
  secretKeywords.any (fun kw =>
    match dropPrefixChars kw.data cs with
    | some rest => secretAssignTail rest
    | none => false)

/-- `(?i)(api_?key|access_?token|secret_?key|password|passwd|pwd)\s*=\s*['"][a-zA-Z0-9_\-]{20,}['"]`
searched anywhere in the line. -/
def matchesSecretAssign (line : List Char) : Bool :=
  searchPos secretAssignAt (line.map Char.toLower)

/-- `(?i)Authorization:\s*Bearer\s+[a-zA-Z0-9_\-\.]+` anchored at a
position of the lowered line. -/
def bearerAt (cs : List Char) : Bool :=
  match dropPrefixChars "authorization:".data cs with
  | some r1 =>
      (match dropPrefixChars "bearer".data (r1.dropWhile isPySpace) with
       | some r2 =>
           1 ≤ (r2.takeWhile isPySpace).length &&
             (match r2.dropWhile isPySpace with
              | t :: _ => isBearerTokenChar t
              | [] => false)
       | none => false)
  | none => false

def matchesBearer (line : List Char) : Bool :=
  searchPos bearerAt (line.map Char.toLower)

/-- `(?i)AWS_ACCESS_KEY_ID\s*=\s*['"]AKIA[0-9A-Z]{16}['"]` anchored at a
position of the lowered line. -/
def awsKeyAt (cs : List Char) : Bool :=
  match dropPrefixChars "aws_access_key_id".data cs with
  | some r1 =>
      (match r1.dropWhile isPySpace with
       | [] => false
       | c :: r2 =>
           c == '=' &&
             (match r2.dropWhile isPySpace with
              | [] => false
              | q :: r3 =>
                  isQuote q &&
                    (match dropPrefixChars "akia".data r3 with
                     | some r4 =>
                         (r4.take 16).length == 16 && (r4.take 16).all isAwsKeyChar &&
                           (match r4.drop 16 with
                            | k :: _ => isQuote k
                            | [] => false)
                     | none => false)))
  | none => false

def matchesAwsKey (line : List Char) : Bool :=
  searchPos awsKeyAt (line.map Char.toLower)

/-- The three secret patterns with their messages, in source order. -/
def secretPatterns : List ((List Char → Bool) × String) :=
  [(matchesSecretAssign, "Possible hardcoded secret"),
   (matchesBearer, "Hardcoded Bearer token"),
   (matchesAwsKey, "Hardcoded AWS Access Key")]

/-- The line list of a source string: Python `code.split('\n')`. -/
def codeLines (code : String) : List (List Char) :=
  code.data.splitOn '\n'

/-- Embedding of `check_hardcoded_secrets` (`detect_hardcoded_secrets` in
the spec): one critical finding per (line, matching pattern) pair. -/
def check_hardcoded_secrets (code : String) : List Finding :=
  (List.enumFrom 1 (codeLines code)).flatMap (fun p =>
    secretPatterns.flatMap (fun pat =>
      if pat.1 p.2 then [⟨p.1, pat.2 ++ " detected", .critical⟩] else []))

/-- The lowercased SQL keywords of the alternation
`(SELECT|INSERT|UPDATE|DELETE|DROP|ALTER)`. -/
def sqlKeywords : List String :=
  ["select", "insert", "update", "delete", "drop", "alter"]

/-- The tail `["']\s*\+` of the concatenation pattern, anchored at a
position after the keyword. -/
def concatTailAt (cs : List Char) : Bool :=
  match cs with
  | q :: rest =>
      isQuote q &&
        (match rest.dropWhile isPySpace with
         | c :: _ => c == '+'
         | [] => false)
  | [] => false

/-- `(SELECT|...).*["']\s*\+.*` anchored at a position of the lowered line. -/
def sqlConcatAt (cs : List Char) : Bool :=
  sqlKeywords.any (fun kw =>
    match dropPrefixChars kw.data cs with
    | some rest => searchPos concatTailAt rest
    | none => false)

def matchesSqlConcat (line : List Char) : Bool :=
  searchPos sqlConcatAt (line.map Char.toLower)

/-- `.*\}.*["']`: somewhere a closing brace, followed somewhere by a quote. -/
def closeBraceThenQuote (cs : List Char) : Bool :=
  searchPos (fun gs =>
    match gs with
    | e :: r => e == Char.ofNat 125 && r.any isQuote
    | [] => false) cs

/-- `.*\{.*\}.*["']`: an embedded `{...}` expression followed by a quote. -/
def openBraceTail (cs : List Char) : Bool :=
  searchPos (fun es =>
    match es with
    | b :: r => b == Char.ofNat 123 && closeBraceThenQuote r
    | [] => false) cs

/-- `(SELECT|...).*\{.*\}.*["']` anchored at a position. -/
def sqlKeywordBraceTail (cs : List Char) : Bool :=
  sqlKeywords.any (fun kw =>
    match dropPrefixChars kw.data cs with
    | some rest => openBraceTail rest
    | none => false)

/-- `f["'].*(SELECT|...).*\{.*\}.*["']` anchored at a position of the
lowered line. -/
def fstringAt (cs : List Char) : Bool :=
  match cs with
  | c :: q :: rest => c == 'f' && isQuote q && searchPos sqlKeywordBraceTail rest
  | _ => false

def matchesSqlFstring (line : List Char) : Bool :=
  searchPos fstringAt (line.map Char.toLower)

/-- Embedding of `check_sql_injection` (`detect_sql_injection_patterns` in
the spec). -/
def check_sql_injection (code : String) : List Finding :=
  (List.enumFrom 1 (codeLines code)).flatMap (fun p =>
    if matchesSqlConcat p.2 || matchesSqlFstring p.2 then
      [⟨p.1, "Potential SQL Injection: detected dynamic string construction in SQL query",
        .critical⟩]
    else [])

/-! ## Complexity analyzer (`check_complexity`) -/

def complexityMsg (score : Nat) (name : String) : String :=
  "High Cyclomatic Complexity (" ++ toString score ++ " > 10) in function " ++
    apos ++ name ++ apos

/-- Embedding of `check_complexity`: flags every extracted function whose
complexity score (0 when its name is absent from the map) exceeds 10. -/
def check_complexity (raw : Option Node) (language : String) : List Finding :=
  match parse raw language with
  | none => []
  | some ast =>
      let metrics := get_complexity_metrics ast
      (extract_functions ast).flatMap (fun func =>
        let score := (List.lookup func.name metrics).getD 0
        if score > 10 then
          [⟨func.start_line, complexityMsg score func.name, .warning⟩]
        else [])

/-! ## Smell detector (`check_code_smells`) -/

def longFuncMsg (name : String) (len : Nat) : String :=
  "Function " ++ apos ++ name ++ apos ++ " is too long (" ++ toString len ++ " lines > 50)"

def manyParamsMsg (name : String) (count : Nat) : String :=
  "Function " ++ apos ++ name ++ apos ++ " has too many parameters (" ++
    toString count ++ " > 5)"

def deepNestingMsg (depth : Nat) : String :=
  "Deep nesting detected (Level " ++ toString depth ++ " > 4)"

/-- The nesting-increasing node kinds of `find_deep_nesting`. -/
def nestingKinds : List String :=
  ["if_statement", "for_statement", "while_statement", "catch_clause", "except_clause"]

mutual

/-- Embedding of `find_deep_nesting`: the depth counter increments on
nesting-increasing kinds; when the incremented depth of such a node
exceeds 4, one warning is emitted at its start line and its children are
not visited. -/
def find_deep_nesting : Node → Nat → List Finding
  | .mk k f s e t cs, depth =>
      let depth1 := if nestingKinds.contains k then depth + 1 else depth
      if depth1 > 4 && nestingKinds.contains k then
        [⟨s + 1, deepNestingMsg depth1, .warning⟩]
      else findDeepNestingList cs depth1

def findDeepNestingList : List Node → Nat → List Finding
  | [], _ => []
  | c :: cs, depth => find_deep_nesting c depth ++ findDeepNestingList cs depth

end

/-- Embedding of `check_code_smells` (`detect_code_smells` in the spec):
length and parameter-count findings per extracted function, then the
deep-nesting findings of the whole tree starting at depth 0. -/
def check_code_smells (raw : Option Node) (language : String) : List Finding :=
  match parse raw language with
  | none => []
  | some ast =>
      ((extract_functions ast).flatMap (fun func =>
        (if func.end_line - func.start_line > 50 then
          [⟨func.start_line, longFuncMsg func.name (func.end_line - func.start_line),
            .warning⟩]
        else [])
        ++
        (if func.args.length > 5 then
          [⟨func.start_line, manyParamsMsg func.name func.args.length, .warning⟩]
        else [])))
      ++ find_deep_nesting ast 0

/-! ## Naming validator (`check_naming_conventions`) -/

/-- `re.match` against `^[a-z_][a-z0-9_]*$` (identifiers contain no
newline, so `$` is embedded as end-of-string). -/
def isSnakeCase (s : String) : Bool :=
  match s.data with
  | [] => false
  | c :: cs => (c.isLower || c == '_') && cs.all (fun d => d.isLower || d.isDigit || d == '_')

/-- `re.match` against `^[a-z][a-zA-Z0-9]*$`. -/
def isCamelCase (s : String) : Bool :=
  match s.data with
  | [] => false
  | c :: cs => c.isLower && cs.all (fun d => d.isAlpha || d.isDigit)

def namingMsgPy (name : String) : String :=
  "Function " ++ apos ++ name ++ apos ++ " does not follow PEP8 snake_case convention"

def namingMsgJs (name : String) : String :=
  "Function " ++ apos ++ name ++ apos ++ " does not follow camelCase convention"

/-- Embedding of `check_naming_conventions`: skips the anonymous sentinel;
Python names must be snake_case or dunder, JavaScript/TypeScript names
must be camelCase; other languages produce nothing. -/
def check_naming_conventions (raw : Option Node) (language : String) : List Finding :=
  match parse raw language with
  | none => []
  | some ast =>
      (extract_functions ast).flatMap (fun func =>
        if func.name == "anonymous" then []
        else if (strLower language) == "python" then
          (if !(isSnakeCase func.name) &&
              !(strStartsWith func.name "__" && strEndsWith func.name "__") then
            [⟨func.start_line, namingMsgPy func.name, .info⟩]
          else [])
        else if (strLower language) == "javascript" || (strLower language) == "typescript" then
          (if !(isCamelCase func.name) then
            [⟨func.start_line, namingMsgJs func.name, .info⟩]
          else [])
        else [])

/-! ## Spec-side characterizations and concrete inputs -/

mutual

/-- Spec-side: every node of the subtree paired with its nesting level
(the number of enclosing nesting-increasing nodes, the node itself
included when its own kind is nesting-increasing — the "entry depth" of
the traversal). -/
def nestingLevels : Node → Nat → List (Node × Nat)
  | .mk k f s e t cs, d =>
      let d1 := if nestingKinds.contains k then d + 1 else d
      (Node.mk k f s e t cs, d1) :: nestingLevelsList cs d1

def nestingLevelsList : List Node → Nat → List (Node × Nat)
  | [], _ => []
  | c :: cs, d => nestingLevels c d ++ nestingLevelsList cs d

end

mutual

/-- Spec-side: the outermost nesting-increasing nodes whose nesting level
exceeds 4, each paired with that level; nodes below such a node are not
listed. -/
def deepRoots : Node → Nat → List (Node × Nat)
  | .mk k f s e t cs, d =>
      let d1 := if nestingKinds.contains k then d + 1 else d
      if nestingKinds.contains k && d1 > 4 then [(Node.mk k f s e t cs, d1)]
      else deepRootsList cs d1

def deepRootsList : List Node → Nat → List (Node × Nat)
  | [], _ => []
  | c :: cs, d => deepRoots c d ++ deepRootsList cs d

end

/-- The warning `find_deep_nesting` emits for an over-nested node at a
given level. -/
def deepFindingOf (p : Node × Nat) : Finding :=
  ⟨p.1.startRow + 1, deepNestingMsg p.2, .warning⟩

/-- Spec-side kinds that are conditionals («if», «elif», «switch case»,
ternary). -/
def conditionalKinds : List String :=
  ["if_statement", "elif_clause", "case_clause", "ternary_expression"]

/-- Spec-side kinds that are loops. -/
def loopKinds : List String :=
  ["for_statement", "while_statement", "do_statement"]

/-- Spec-side: a logical-operator construct (Python `and`/`or`, or a
binary expression whose operator is `&&` or `||`). -/
def isLogicalOperatorNode (n : Node) : Bool :=
  n.kind == "boolean_operator" ||
    (n.kind == "binary_expression" &&
      (match childByFieldName n "operator" with
       | some op => op.text == "&&" || op.text == "||"
       | none => false))

/-- Spec-side: a conditional, loop, or logical-operator construct. -/
def isBranchingConstruct (n : Node) : Bool :=
  conditionalKinds.contains n.kind || loopKinds.contains n.kind || isLogicalOperatorNode n

/-- A Python function `def g(): pass` spanning rows 0–1: no
complexity-increasing construct at all. -/
def plainFunc : Node :=
  .mk "function_definition" none 0 1 "def g(): pass"
    [.mk "identifier" (some "name") 0 0 "g" [],
     .mk "parameters" (some "parameters") 0 0 "()" [],
     .mk "block" none 1 1 "pass" [.mk "pass_statement" none 1 1 "pass" []]]

/-- A Python function whose body is a single `with` statement: it contains
no conditional, no loop and no logical operator, but `with_statement` is
in the complexity-increasing set. -/
def funcWithWith : Node :=
  .mk "function_definition" none 0 2 "def f(): ..."
    [.mk "identifier" (some "name") 0 0 "f" [],
     .mk "parameters" (some "parameters") 0 0 "()" [],
     .mk "block" none 1 2 ""
       [.mk "with_statement" none 1 2 "with open(x): pass" []]]

/-- A module with two same-named functions: the first with a plain body
(score 1), the second containing one `if` (score 2). -/
def dupNameModule : Node :=
  .mk "module" none 0 6 ""
    [.mk "function_definition" none 0 1 ""
       [.mk "identifier" (some "name") 0 0 "__init__" [],
        .mk "block" none 1 1 "" [.mk "pass_statement" none 1 1 "pass" []]],
     .mk "function_definition" none 3 5 ""
       [.mk "identifier" (some "name") 3 3 "__init__" [],
        .mk "block" none 4 5 ""
          [.mk "if_statement" none 4 5 "" [.mk "pass_statement" none 5 5 "pass" []]]]]

/-- A tower of nested `if` statements: `height` levels, the outermost at
row `row`. -/
def ifTower : Nat → Nat → Node
  | 0, row => .mk "pass_statement" none row row "pass" []
  | h + 1, row => .mk "if_statement" none row (row + h + 1) "" [ifTower h (row + 1)]

/-- A module holding a function whose body nests 5 `if` statements. -/
def nested5Module : Node :=
  .mk "module" none 0 7 ""
    [.mk "function_definition" none 0 7 ""
       [.mk "identifier" (some "name") 0 0 "deep" [],
        .mk "parameters" (some "parameters") 0 0 "()" [],
        .mk "block" none 1 7 "" [ifTower 5 1]]]

/-- A module holding a function whose body nests 6 `if` statements. -/
def nested6Module : Node :=
  .mk "module" none 0 8 ""
    [.mk "function_definition" none 0 8 ""
       [.mk "identifier" (some "name") 0 0 "deep" [],
        .mk "parameters" (some "parameters") 0 0 "()" [],
        .mk "block" none 1 8 "" [ifTower 6 1]]]

/-- A Python module defining one camelCase function `myFunction`. -/
def camelModule : Node :=
  .mk "module" none 0 1 ""
    [.mk "function_definition" none 0 1 ""
       [.mk "identifier" (some "name") 0 0 "myFunction" [],
        .mk "parameters" (some "parameters") 0 0 "()" [],
        .mk "block" none 1 1 "" [.mk "pass_statement" none 1 1 "pass" []]]]

/-- A Python module defining one dunder function `__init__`. -/
def dunderModule : Node :=
  .mk "module" none 0 1 ""
    [.mk "function_definition" none 0 1 ""
       [.mk "identifier" (some "name") 0 0 "__init__" [],
        .mk "parameters" (some "parameters") 0 0 "()" [],
        .mk "block" none 1 1 "" [.mk "pass_statement" none 1 1 "pass" []]]]

/-- A two-line Python module with one class holding one method. -/
def smallClassModule : Node :=
  .mk "module" none 0 1 ""
    [.mk "class_definition" none 0 1 ""
       [.mk "identifier" (some "name") 0 0 "C" [],
        .mk "block" none 1 1 ""
          [.mk "function_definition" none 1 1 ""
             [.mk "identifier" (some "name") 1 1 "m" [],
              .mk "parameters" (some "parameters") 1 1 "()" [],
              .mk "block" none 1 1 "pass" []]]]]

/-- Modelled from the spec: trees returned by the external tree-sitter
parse (a library, not part of this repository) carry spans lying within
the parsed text — spec §3: each signature's lines "lie within the bounds
of the source text's line count". Over the 0-based rows this reads: start
row ≤ end row, and the end row is below the line count. -/
def SpanWF (t : Node) (numLines : Nat) : Prop :=
  ∀ m ∈ subtreeNodes t, m.startRow ≤ m.endRow ∧ m.endRow + 1 ≤ numLines

/-- The second (pre-order-last) `__init__` function node of
`dupNameModule`. -/
def dupSecondFunc : Node :=
  .mk "function_definition" none 3 5 ""
    [.mk "identifier" (some "name") 3 3 "__init__" [],
     .mk "block" none 4 5 ""
       [.mk "if_statement" none 4 5 "" [.mk "pass_statement" none 5 5 "pass" []]]]

/-! # Theorems -/

/-! ## Complexity-scorer lemmas -/

theorem complexityIncrement_eq (n : Node) :
    complexityIncrement n = if isComplexityCounted n then 1 else 0 := by
  unfold complexityIncrement isComplexityCounted
  cases hop : childByFieldName n "operator" <;> by_cases h1 : complexity_node_types.contains n.kind <;>
    by_cases h2 : n.kind == "binary_expression" <;> simp_all

mutual

theorem walkScore_eq : ∀ n : Node,
    walkScore n = (subtreeNodes n).countP (fun m => isComplexityCounted m)
  | .mk k f s e t cs => by
      rw [walkScore, subtreeNodes, List.countP_cons, walkScoreList_eq cs,
        complexityIncrement_eq]
      split <;> simp [Nat.add_comm]

theorem walkScoreList_eq : ∀ l : List Node,
    walkScoreList l = (subtreeNodesList l).countP (fun m => isComplexityCounted m)
  | [] => by simp [walkScoreList, subtreeNodesList]
  | c :: cs => by
      rw [walkScoreList, subtreeNodesList, List.countP_append, walkScore_eq c,
        walkScoreList_eq cs]

end

mutual

theorem findFuncs_eq : ∀ (n : Node) (m : List (String × Nat)),
    findFuncs n m = (functionNodes n).foldl
      (fun acc fn => dictInsert acc (nodeNameOf fn) (calculate_complexity fn)) m
  | .mk k f s e t cs, m => by
      rw [findFuncs, functionNodes, List.foldl_append, findFuncsList_eq cs]
      split <;> simp

theorem findFuncsList_eq : ∀ (l : List Node) (m : List (String × Nat)),
    findFuncsList l m = (functionNodesList l).foldl
      (fun acc fn => dictInsert acc (nodeNameOf fn) (calculate_complexity fn)) m
  | [], m => by rw [findFuncsList, functionNodesList, List.foldl_nil]
  | c :: cs, m => by
      rw [findFuncsList, functionNodesList, List.foldl_append, findFuncs_eq c,
        findFuncsList_eq cs]

end

theorem calculate_complexity_eq_spec (n : Node) :
    calculate_complexity n = specComplexityScore n := by
  rw [calculate_complexity, specComplexityScore, walkScore_eq]

theorem lookup_dictInsert (m : List (String × Nat)) (k v k') :
    List.lookup k' (dictInsert m k v) = if k' == k then some v else List.lookup k' m := by
  induction m with
  | nil =>
      rw [dictInsert, List.lookup, List.lookup]
      cases h : k' == k <;> simp
  | cons p rest ih =>
      obtain ⟨k₁, v₁⟩ := p
      rw [dictInsert]
      cases h1 : k₁ == k
      · simp only [Bool.false_eq_true, if_false, List.lookup, ih]
        cases h2 : k' == k₁ <;> cases h3 : k' == k <;> simp_all
      · have hk : k₁ = k := by simpa using h1
        subst hk
        simp only [if_true, List.lookup]
        cases h2 : k' == k₁ <;> simp

theorem mem_keys_dictInsert (m : List (String × Nat)) (k v x) :
    x ∈ (dictInsert m k v).map Prod.fst ↔ x ∈ m.map Prod.fst ∨ x = k := by
  induction m with
  | nil => simp [dictInsert]
  | cons p rest ih =>
      obtain ⟨k₁, v₁⟩ := p
      rw [dictInsert]
      cases h1 : k₁ == k
      · simp only [Bool.false_eq_true, if_false, List.map_cons, List.mem_cons, ih]
        tauto
      · have hk : k₁ = k := by simpa using h1
        subst hk
        simp only [if_true, List.map_cons, List.mem_cons]
        tauto

theorem keys_nodup_dictInsert (m : List (String × Nat)) (k v)
    (h : (m.map Prod.fst).Nodup) : ((dictInsert m k v).map Prod.fst).Nodup := by
  induction m with
  | nil => simp [dictInsert]
  | cons p rest ih =>
      obtain ⟨k₁, v₁⟩ := p
      rw [dictInsert]
      simp only [List.map_cons, List.nodup_cons] at h
      cases h1 : k₁ == k
      · simp only [Bool.false_eq_true, if_false, List.map_cons, List.nodup_cons]
        refine ⟨?_, ih h.2⟩
        rw [mem_keys_dictInsert]
        rintro (hm | hk)
        · exact h.1 hm
        · exact absurd hk (by simpa using h1)
      · have hk : k₁ = k := by simpa using h1
        subst hk
        simp only [if_true, List.map_cons, List.nodup_cons]
        exact h

theorem keys_nodup_foldl (l : List Node) (m : List (String × Nat))
    (h : (m.map Prod.fst).Nodup) :
    ((l.foldl (fun acc fn => dictInsert acc (nodeNameOf fn) (calculate_complexity fn)) m).map
      Prod.fst).Nodup := by
  induction l generalizing m with
  | nil => simpa
  | cons fn rest ih => exact ih _ (keys_nodup_dictInsert _ _ _ h)

theorem lookup_foldl_dictInsert (l : List Node) (m : List (String × Nat)) (s : String) :
    List.lookup s
        (l.foldl (fun acc fn => dictInsert acc (nodeNameOf fn) (calculate_complexity fn)) m) =
      match (l.filter (fun fn => nodeNameOf fn == s)).getLast? with
      | some fn => some (calculate_complexity fn)
      | none => List.lookup s m := by
  induction l generalizing m with
  | nil => simp
  | cons fn rest ih =>
      rw [List.foldl_cons, ih, List.filter_cons]
      cases hlast : (rest.filter (fun d => nodeNameOf d == s)).getLast? with
      | some g =>
          have hne : rest.filter (fun d => nodeNameOf d == s) ≠ [] := by
            intro he
            rw [he] at hlast
            simp at hlast
          obtain ⟨b, bs, hbl⟩ := List.exists_cons_of_ne_nil hne
          cases h1 : nodeNameOf fn == s
          · simp only [Bool.false_eq_true, if_false, hlast]
          · simp only [if_true, hbl, List.getLast?_cons_cons]
            rw [hbl] at hlast
            simp only [hlast]
      | none =>
          have hnil : rest.filter (fun d => nodeNameOf d == s) = [] :=
            List.getLast?_eq_none_iff.mp hlast
          cases h1 : nodeNameOf fn == s
          · simp only [Bool.false_eq_true, if_false, hlast, lookup_dictInsert]
            have : (s == nodeNameOf fn) = false := by
              simp only [beq_eq_false_iff_ne] at h1 ⊢
              exact fun he => h1 he.symm
            simp [this]
          · simp only [if_true, lookup_dictInsert]
            have hsn : (s == nodeNameOf fn) = true := by
              simp only [beq_iff_eq] at h1 ⊢
              exact h1.symm
            rw [hnil]
            simp [hsn]

/-! ## C1, C2, C9: the complexity map -/

/-- C1: for every parsed tree, `score_complexity` assigns each
function-like node (kind `function_definition`, `function_declaration` or
`method_definition`) the score 1 plus the number of nodes in its subtree
whose kind is in the complexity-increasing set, a `binary_expression`
counting only when its operator child's text is `&&` or `||`; entries are
written name-keyed in pre-order. -/
theorem score_complexity_maps_each_function (t : Node) :
    get_complexity_metrics t =
      (functionNodes t).foldl
        (fun m fn => dictInsert m (nodeNameOf fn) (specComplexityScore fn)) [] := by
  rw [get_complexity_metrics, findFuncs_eq]
  apply List.foldl_ext
  intro m fn _
  rw [calculate_complexity_eq_spec]

/-- C2 (counterexample): a function whose body is a single `with`
statement contains no conditional, no loop and no logical-operator
construct, yet its complexity score is 2, not 1 — `with_statement` is in
the complexity-increasing set. -/
theorem complexity_no_branching_cex :
    (∀ m ∈ subtreeNodes funcWithWith, isBranchingConstruct m = false) ∧
    calculate_complexity funcWithWith = 2 :=
  ⟨by decide, by decide⟩

/-- C2 (amended): a function containing no node of the
complexity-increasing set (which adds `with`/`assert` statements and the
other counted kinds to conditionals, loops and logical operators) scores
exactly 1. -/
theorem complexity_score_one_of_no_counted (n : Node)
    (h : ∀ m ∈ subtreeNodes n, isComplexityCounted m = false) :
    calculate_complexity n = 1 := by
  rw [calculate_complexity_eq_spec, specComplexityScore]
  have hz : (subtreeNodes n).countP (fun m => isComplexityCounted m) = 0 := by
    rw [List.countP_eq_zero]
    intro a ha
    simp [h a ha]
  omega

/-- Witness for C2 (amended) at `plainFunc`. -/
theorem complexity_score_one_witness :
    (∀ m ∈ subtreeNodes plainFunc, isComplexityCounted m = false) ∧
    calculate_complexity plainFunc = 1 :=
  ⟨by decide, complexity_score_one_of_no_counted plainFunc (by decide)⟩

/-- C9: the complexity map has at most one entry per function name, and
when several function-like nodes share a name the entry holds the score of
the node visited last in the depth-first pre-order traversal (later
computations overwrite earlier ones). -/
theorem score_complexity_last_wins (t : Node) (s : String) (fn : Node)
    (h : ((functionNodes t).filter (fun d => nodeNameOf d == s)).getLast? = some fn) :
    ((get_complexity_metrics t).map Prod.fst).Nodup ∧
    List.lookup s (get_complexity_metrics t) = some (calculate_complexity fn) := by
  constructor
  · rw [get_complexity_metrics, findFuncs_eq]
    exact keys_nodup_foldl _ _ (by simp)
  · rw [get_complexity_metrics, findFuncs_eq, lookup_foldl_dictInsert, h]

/-- Witness for C9 at `dupNameModule`, whose two functions are both named
`__init__`: the returned score is the second function's score 2. -/
theorem score_complexity_last_wins_witness :
    ((functionNodes dupNameModule).filter (fun d => nodeNameOf d == "__init__")).getLast?
        = some dupSecondFunc ∧
    List.lookup "__init__" (get_complexity_metrics dupNameModule) = some 2 := by
  have h : ((functionNodes dupNameModule).filter
      (fun d => nodeNameOf d == "__init__")).getLast? = some dupSecondFunc := rfl
  refine ⟨h, ?_⟩
  have h2 := (score_complexity_last_wins dupNameModule "__init__" dupSecondFunc h).2
  rw [h2]
  rfl

/-! ## C3, C10: the parse gate -/

/-- C3 (counterexample): no parser is registered under the language names
"jsx" and "tsx", so `parse` yields no tree for them, though the claim
lists both as succeeding. -/
theorem parse_jsx_fails_cex :
    parse (some plainFunc) "jsx" = none ∧ parse (some plainFunc) "tsx" = none ∧
    registeredLanguages.contains (strLower "jsx") = false ∧
    registeredLanguages.contains (strLower "tsx") = false :=
  ⟨rfl, rfl, rfl, rfl⟩

/-- C3 (amended): `parse` succeeds exactly when the lowercased language
name is registered — python, javascript, or typescript, the last resolved
to the JavaScript grammar — and yields no tree exactly when it is not;
"jsx" and "tsx" resolve to no grammar. -/
theorem parse_registered_iff (t : Node) (language : String) :
    (parse (some t) language = some t ↔ strLower language ∈ registeredLanguages) ∧
    (parse (some t) language = none ↔ strLower language ∉ registeredLanguages) ∧
    registeredLanguages = ["python", "javascript", "typescript"] ∧
    grammarFor "python" = some "python" ∧ grammarFor "javascript" = some "javascript" ∧
    grammarFor "typescript" = some "javascript" ∧
    grammarFor "jsx" = none ∧ grammarFor "tsx" = none := by
  refine ⟨?_, ?_, rfl, rfl, rfl, rfl, rfl, rfl⟩ <;>
    · unfold parse
      by_cases hm : strLower language ∈ registeredLanguages <;>
        simp [hm, List.elem_iff]

/-- C10: whenever `parse` yields no tree (unregistered language or
internal parser error), the three tree-based analyzers return the empty
finding list. -/
theorem analyzers_empty_without_tree (raw : Option Node) (language : String)
    (h : parse raw language = none) :
    check_code_smells raw language = [] ∧ check_naming_conventions raw language = [] ∧
    check_complexity raw language = [] := by
  unfold check_code_smells check_naming_conventions check_complexity
  rw [h]
  exact ⟨rfl, rfl, rfl⟩

/-- Witness for C10 at the unregistered language "ruby". -/
theorem analyzers_empty_without_tree_witness :
    parse (some plainFunc) "ruby" = none ∧
    check_code_smells (some plainFunc) "ruby" = [] ∧
    check_naming_conventions (some plainFunc) "ruby" = [] ∧
    check_complexity (some plainFunc) "ruby" = [] := by
  have h : parse (some plainFunc) "ruby" = none := rfl
  obtain ⟨a, b, c⟩ := analyzers_empty_without_tree (some plainFunc) "ruby" h
  exact ⟨h, a, b, c⟩

/-! ## C4: deep-nesting findings -/

mutual

theorem find_deep_nesting_eq : ∀ (n : Node) (d : Nat),
    find_deep_nesting n d = (deepRoots n d).map deepFindingOf
  | .mk k f s e t cs, d => by
      rw [find_deep_nesting, deepRoots]
      cases hc : nestingKinds.contains k
      · simp only [Bool.and_false, Bool.false_and, if_neg Bool.false_ne_true]
        exact findDeepNestingList_eq cs d
      · by_cases hd : d + 1 > 4
        · simp only [hc, if_true, decide_eq_true hd, Bool.and_true, Bool.true_and]
          rfl
        · simp only [hc, if_true, decide_eq_false hd, Bool.and_false, Bool.false_and,
            if_neg Bool.false_ne_true]
          exact findDeepNestingList_eq cs (d + 1)

theorem findDeepNestingList_eq : ∀ (l : List Node) (d : Nat),
    findDeepNestingList l d = (deepRootsList l d).map deepFindingOf
  | [], _ => rfl
  | c :: cs, d => by
      rw [findDeepNestingList, deepRootsList, List.map_append,
        find_deep_nesting_eq c, findDeepNestingList_eq cs]

end

mutual

theorem deepRoots_mem : ∀ (n : Node) (d : Nat), ∀ p ∈ deepRoots n d,
    p ∈ nestingLevels n d ∧ nestingKinds.contains p.1.kind = true ∧ 4 < p.2
  | .mk k f s e t cs, d => by
      intro p hp
      rw [deepRoots] at hp
      rw [nestingLevels]
      cases hc : nestingKinds.contains k
      · rw [hc] at hp
        simp only [Bool.false_and, if_neg Bool.false_ne_true] at hp
        have := deepRootsList_mem cs d p hp
        simp only [hc, if_neg Bool.false_ne_true] at this ⊢
        exact ⟨List.mem_cons_of_mem _ this.1, this.2⟩
      · rw [hc] at hp
        simp only [if_true, Bool.true_and] at hp ⊢
        by_cases hd : d + 1 > 4
        · rw [if_pos (by simp [hd])] at hp
          simp only [List.mem_singleton] at hp
          subst hp
          exact ⟨List.mem_cons_self _ _, by simpa using hc, hd⟩
        · rw [if_neg (by simp [hd])] at hp
          have := deepRootsList_mem cs (d + 1) p hp
          exact ⟨List.mem_cons_of_mem _ this.1, this.2⟩

theorem deepRootsList_mem : ∀ (l : List Node) (d : Nat), ∀ p ∈ deepRootsList l d,
    p ∈ nestingLevelsList l d ∧ nestingKinds.contains p.1.kind = true ∧ 4 < p.2
  | [], _ => by intro p hp; simp [deepRootsList] at hp
  | c :: cs, d => by
      intro p hp
      rw [deepRootsList, List.mem_append] at hp
      rw [nestingLevelsList]
      rcases hp with hp | hp
      · have := deepRoots_mem c d p hp
        exact ⟨List.mem_append_left _ this.1, this.2⟩
      · have := deepRootsList_mem cs d p hp
        exact ⟨List.mem_append_right _ this.1, this.2⟩

end

/-- C4 (amended): the nesting-depth check emits exactly one warning per
*outermost* nesting-increasing node whose entry depth exceeds 4, at that
node's start line, and emits nothing for any node inside such a node's
subtree; in particular a function body with 5 levels of nested `if`
blocks yields exactly one deep-nesting Finding, anchored at the 5th-level
node's start line. -/
theorem detect_deep_nesting_one_per_region (n : Node) (d : Nat) :
    find_deep_nesting n d = (deepRoots n d).map deepFindingOf ∧
    (∀ p ∈ deepRoots n d,
      p ∈ nestingLevels n d ∧ nestingKinds.contains p.1.kind = true ∧ 4 < p.2) ∧
    check_code_smells (some nested5Module) "python" =
      [⟨6, deepNestingMsg 5, Severity.warning⟩] :=
  ⟨find_deep_nesting_eq n d, deepRoots_mem n d, by decide⟩

/-- C4 (counterexample): in a 6-deep `if` tower the 6th-level node (start
row 6, line 7) is nesting-increasing with entry depth 6 > 4, yet no
finding is emitted at its line — only the single finding of the 5th-level
node survives, so the claim's "for every node whose entry depth exceeds
4, exactly one warning is emitted at that node's start line" fails. -/
theorem detect_deep_nesting_cex :
    (nestingLevels nested6Module 0).countP
        (fun p => nestingKinds.contains p.1.kind && Nat.ble 5 p.2 && (p.1.startRow == 6)) = 1 ∧
    find_deep_nesting nested6Module 0 = [⟨6, deepNestingMsg 5, Severity.warning⟩] ∧
    (find_deep_nesting nested6Module 0).countP (fun g => g.line_number == 7) = 0 :=
  ⟨by decide, by decide, by decide⟩

/-! ## C7: naming conventions -/

theorem flatMap_congr_fun {α β : Type} (l : List α) (f g : α → List β)
    (h : ∀ x, f x = g x) : l.flatMap f = l.flatMap g := by
  induction l with
  | nil => rfl
  | cons a as ih => rw [List.flatMap_cons, List.flatMap_cons, h a, ih]

theorem flatMap_if_singleton {α β : Type} (l : List α) (p : α → Bool) (g : α → β) :
    (l.flatMap fun x => if p x then [g x] else []) = (l.filter p).map g := by
  induction l with
  | nil => rfl
  | cons a as ih =>
      rw [List.flatMap_cons, List.filter_cons, ih]
      cases hp : p a <;> simp

/-- C7: on Python sources, the naming check emits one info Finding at the
function's start line for exactly those extracted function names that are
not the "anonymous" sentinel, do not match snake_case, and are not
dunders; in particular `myFunction` yields one info Finding and
`__init__` yields none. -/
theorem check_naming_python_spec (t : Node) :
    check_naming_conventions (some t) "python" =
      ((extract_functions t).filter (fun func =>
        !(func.name == "anonymous") && !(isSnakeCase func.name) &&
          !(strStartsWith func.name "__" && strEndsWith func.name "__"))).map
        (fun func => ⟨func.start_line, namingMsgPy func.name, Severity.info⟩) ∧
    check_naming_conventions (some camelModule) "python" =
      [⟨1, namingMsgPy "myFunction", Severity.info⟩] ∧
    check_naming_conventions (some dunderModule) "python" = [] := by
  refine ⟨?_, by decide, by decide⟩
  have hp : parse (some t) "python" = some t := rfl
  unfold check_naming_conventions
  simp only [hp]
  rw [flatMap_congr_fun _ _
    (fun func => if !(func.name == "anonymous") && !(isSnakeCase func.name) &&
        !(strStartsWith func.name "__" && strEndsWith func.name "__") then
      [⟨func.start_line, namingMsgPy func.name, Severity.info⟩] else []) ?_,
    flatMap_if_singleton]
  intro func
  have hlang : ((strLower "python") == "python") = true := rfl
  rw [hlang]
  cases h1 : func.name == "anonymous" <;> cases h2 : isSnakeCase func.name <;>
    cases h3 : strStartsWith func.name "__" && strEndsWith func.name "__" <;> simp_all
  cases hs : strStartsWith func.name "__"
  · simp [hs]
  · simp [h3 hs]

/-! ## C5, C6: the pattern scanners -/

theorem mem_enumFrom_iff {α : Type} (l : List α) (k i : Nat) (x : α) :
    (i, x) ∈ List.enumFrom k l ↔ k ≤ i ∧ l[i - k]? = some x := by
  induction l generalizing k with
  | nil => simp
  | cons a as ih =>
      rw [List.enumFrom_cons, List.mem_cons, ih]
      constructor
      · rintro (he | ⟨hk, hget⟩)
        · simp only [Prod.mk.injEq] at he
          obtain ⟨rfl, rfl⟩ := he
          simp
        · refine ⟨by omega, ?_⟩
          have harith : i - k = (i - (k + 1)) + 1 := by omega
          rw [harith, List.getElem?_cons_succ]
          exact hget
      · rintro ⟨hk, hget⟩
        by_cases he : i = k
        · subst he
          simp only [Nat.sub_self] at hget
          rw [List.getElem?_cons_zero] at hget
          left
          simp only [Option.some.injEq] at hget
          rw [hget]
        · right
          refine ⟨by omega, ?_⟩
          have harith : i - k = (i - (k + 1)) + 1 := by omega
          rw [harith, List.getElem?_cons_succ] at hget
          exact hget

theorem detect_secrets_line_iff (code : String) (i : Nat) :
    (∃ g ∈ check_hardcoded_secrets code, g.line_number = i ∧ g.severity = Severity.critical) ↔
      ∃ l, (codeLines code)[i - 1]? = some l ∧ 1 ≤ i ∧
        (matchesSecretAssign l || matchesBearer l || matchesAwsKey l) = true := by
  unfold check_hardcoded_secrets
  constructor
  · rintro ⟨g, hg, hline, -⟩
    rw [List.mem_flatMap] at hg
    obtain ⟨p, hp, hgp⟩ := hg
    obtain ⟨j, l⟩ := p
    rw [mem_enumFrom_iff] at hp
    obtain ⟨hj, hget⟩ := hp
    rw [List.mem_flatMap] at hgp
    obtain ⟨pat, hpat, hgpat⟩ := hgp
    have hmatch : pat.1 l = true ∧ g.line_number = j := by
      split at hgpat
      · next hcond =>
          simp only [List.mem_singleton] at hgpat
          subst hgpat
          exact ⟨hcond, rfl⟩
      · simp at hgpat
    have hij : i = j := by rw [← hline, hmatch.2]
    subst hij
    refine ⟨l, hget, by omega, ?_⟩
    simp only [secretPatterns, List.mem_cons, List.not_mem_nil, or_false] at hpat
    rcases hpat with rfl | rfl | rfl
    · simp only [Bool.or_eq_true]
      exact Or.inl (Or.inl hmatch.1)
    · simp only [Bool.or_eq_true]
      exact Or.inl (Or.inr hmatch.1)
    · simp only [Bool.or_eq_true]
      exact Or.inr hmatch.1
  · rintro ⟨l, hget, hi, hmatch⟩
    rw [Bool.or_eq_true, Bool.or_eq_true] at hmatch
    have hpick : ∃ pat ∈ secretPatterns, pat.1 l = true := by
      rcases hmatch with (h | h) | h
      · exact ⟨(matchesSecretAssign, "Possible hardcoded secret"), by simp [secretPatterns], h⟩
      · exact ⟨(matchesBearer, "Hardcoded Bearer token"), by simp [secretPatterns], h⟩
      · exact ⟨(matchesAwsKey, "Hardcoded AWS Access Key"), by simp [secretPatterns], h⟩
    obtain ⟨pat, hpat, hp1⟩ := hpick
    refine ⟨⟨i, pat.2 ++ " detected", Severity.critical⟩, ?_, rfl, rfl⟩
    rw [List.mem_flatMap]
    refine ⟨(i, l), ?_, ?_⟩
    · rw [mem_enumFrom_iff]
      exact ⟨hi, hget⟩
    · rw [List.mem_flatMap]
      refine ⟨pat, hpat, ?_⟩
      rw [if_pos hp1]
      exact List.mem_singleton_self _

theorem detect_sql_line_iff (code : String) (i : Nat) :
    (∃ g ∈ check_sql_injection code, g.line_number = i ∧ g.severity = Severity.critical) ↔
      ∃ l, (codeLines code)[i - 1]? = some l ∧ 1 ≤ i ∧
        (matchesSqlConcat l || matchesSqlFstring l) = true := by
  unfold check_sql_injection
  constructor
  · rintro ⟨g, hg, hline, -⟩
    rw [List.mem_flatMap] at hg
    obtain ⟨p, hp, hgp⟩ := hg
    obtain ⟨j, l⟩ := p
    rw [mem_enumFrom_iff] at hp
    obtain ⟨hj, hget⟩ := hp
    have hmatch : (matchesSqlConcat l || matchesSqlFstring l) = true ∧ g.line_number = j := by
      split at hgp
      · next hcond =>
          simp only [List.mem_singleton] at hgp
          subst hgp
          exact ⟨hcond, rfl⟩
      · simp at hgp
    have hij : i = j := by rw [← hline, hmatch.2]
    subst hij
    exact ⟨l, hget, by omega, hmatch.1⟩
  · rintro ⟨l, hget, hi, hmatch⟩
    refine ⟨⟨i, "Potential SQL Injection: detected dynamic string construction in SQL query",
      Severity.critical⟩, ?_, rfl, rfl⟩
    rw [List.mem_flatMap]
    refine ⟨(i, l), ?_, ?_⟩
    · rw [mem_enumFrom_iff]
      exact ⟨hi, hget⟩
    · rw [if_pos hmatch]
      exact List.mem_singleton_self _

/-- C5: the secret scanner emits a critical Finding at line i exactly when
line i matches one of the three case-insensitive secret patterns
(secret-named assignment with a 20+-character quoted value, a Bearer
token literal, an AWS access key literal); in particular
`api_key = "sk-1234567890abcdef12345678"` yields exactly one critical
Finding on its line and `x = "short"` yields none. -/
theorem detect_hardcoded_secrets_spec (code : String) (i : Nat) :
    ((∃ g ∈ check_hardcoded_secrets code, g.line_number = i ∧ g.severity = Severity.critical) ↔
      ∃ l, (codeLines code)[i - 1]? = some l ∧ 1 ≤ i ∧
        (matchesSecretAssign l || matchesBearer l || matchesAwsKey l) = true) ∧
    check_hardcoded_secrets "api_key = \"sk-1234567890abcdef12345678\"" =
      [⟨1, "Possible hardcoded secret detected", Severity.critical⟩] ∧
    check_hardcoded_secrets "x = \"short\"" = [] :=
  ⟨detect_secrets_line_iff code i, by decide, by decide⟩

/-- C6: the SQL-injection scanner emits a critical Finding at line i
exactly when line i contains an SQL keyword followed on the same line by
a quote-then-plus concatenation or appears inside an f-string with an
embedded expression; in particular
`query = "SELECT * FROM t WHERE id=" + user_id` yields one critical
Finding and `cursor.execute("SELECT * FROM t WHERE id=?", (user_id,))`
yields none. -/
theorem detect_sql_injection_spec (code : String) (i : Nat) :
    ((∃ g ∈ check_sql_injection code, g.line_number = i ∧ g.severity = Severity.critical) ↔
      ∃ l, (codeLines code)[i - 1]? = some l ∧ 1 ≤ i ∧
        (matchesSqlConcat l || matchesSqlFstring l) = true) ∧
    check_sql_injection "query = \"SELECT * FROM t WHERE id=\" + user_id" =
      [⟨1, "Potential SQL Injection: detected dynamic string construction in SQL query",
        Severity.critical⟩] ∧
    check_sql_injection "cursor.execute(\"SELECT * FROM t WHERE id=?\", (user_id,))" = [] :=
  ⟨detect_sql_line_iff code i, by decide, by decide⟩

/-! ## C8: line bounds -/

mutual

theorem extract_functions_from_nodes : ∀ n : Node, ∀ fsig ∈ extract_functions n,
    ∃ m ∈ subtreeNodes n, fsig = functionSigOf m
  | .mk k f s e t cs => by
      intro fsig hf
      rw [extract_functions] at hf
      rw [subtreeNodes]
      rcases List.mem_append.mp hf with h | h
      · split at h
        · simp only [List.mem_singleton] at h
          exact ⟨_, List.mem_cons_self _ _, h⟩
        · simp at h
      · obtain ⟨m, hm, he⟩ := extractFunctionsList_from_nodes cs fsig h
        exact ⟨m, List.mem_cons_of_mem _ hm, he⟩

theorem extractFunctionsList_from_nodes : ∀ l : List Node, ∀ fsig ∈ extractFunctionsList l,
    ∃ m ∈ subtreeNodesList l, fsig = functionSigOf m
  | [] => by intro fsig hf; simp [extractFunctionsList] at hf
  | c :: cs => by
      intro fsig hf
      rw [extractFunctionsList, List.mem_append] at hf
      rw [subtreeNodesList]
      rcases hf with h | h
      · obtain ⟨m, hm, he⟩ := extract_functions_from_nodes c fsig h
        exact ⟨m, List.mem_append_left _ hm, he⟩
      · obtain ⟨m, hm, he⟩ := extractFunctionsList_from_nodes cs fsig h
        exact ⟨m, List.mem_append_right _ hm, he⟩

end

mutual

theorem extract_classes_from_nodes : ∀ n : Node, ∀ csig ∈ extract_classes n,
    ∃ m ∈ subtreeNodes n, csig = classSigOf m
  | .mk k f s e t cs => by
      intro csig hc
      rw [extract_classes] at hc
      rw [subtreeNodes]
      rcases List.mem_append.mp hc with h | h
      · split at h
        · simp only [List.mem_singleton] at h
          exact ⟨_, List.mem_cons_self _ _, h⟩
        · simp at h
      · obtain ⟨m, hm, he⟩ := extractClassesList_from_nodes cs csig h
        exact ⟨m, List.mem_cons_of_mem _ hm, he⟩

theorem extractClassesList_from_nodes : ∀ l : List Node, ∀ csig ∈ extractClassesList l,
    ∃ m ∈ subtreeNodesList l, csig = classSigOf m
  | [] => by intro csig hc; simp [extractClassesList] at hc
  | c :: cs => by
      intro csig hc
      rw [extractClassesList, List.mem_append] at hc
      rw [subtreeNodesList]
      rcases hc with h | h
      · obtain ⟨m, hm, he⟩ := extract_classes_from_nodes c csig h
        exact ⟨m, List.mem_append_left _ hm, he⟩
      · obtain ⟨m, hm, he⟩ := extractClassesList_from_nodes cs csig h
        exact ⟨m, List.mem_append_right _ hm, he⟩

end

mutual

theorem nestingLevels_fst_mem : ∀ (n : Node) (d : Nat), ∀ p ∈ nestingLevels n d,
    p.1 ∈ subtreeNodes n
  | .mk k f s e t cs, d => by
      intro p hp
      rw [nestingLevels] at hp
      rw [subtreeNodes]
      rcases List.mem_cons.mp hp with rfl | hp
      · exact List.mem_cons_self _ _
      · exact List.mem_cons_of_mem _ (nestingLevelsList_fst_mem cs _ p hp)

theorem nestingLevelsList_fst_mem : ∀ (l : List Node) (d : Nat), ∀ p ∈ nestingLevelsList l d,
    p.1 ∈ subtreeNodesList l
  | [], _ => by intro p hp; simp [nestingLevelsList] at hp
  | c :: cs, d => by
      intro p hp
      rw [nestingLevelsList, List.mem_append] at hp
      rw [subtreeNodesList]
      rcases hp with h | h
      · exact List.mem_append_left _ (nestingLevels_fst_mem c d p h)
      · exact List.mem_append_right _ (nestingLevelsList_fst_mem cs d p h)

end

theorem check_code_smells_lines (t : Node) (language : String) (g : Finding)
    (hg : g ∈ check_code_smells (some t) language) :
    (∃ fsig ∈ extract_functions t, g.line_number = fsig.start_line) ∨
    (∃ p ∈ deepRoots t 0, g.line_number = p.1.startRow + 1) := by
  unfold check_code_smells at hg
  cases hpar : parse (some t) language with
  | none => simp only [hpar] at hg; simp at hg
  | some ast =>
      have hast : ast = t := by
        unfold parse at hpar
        split at hpar
        · exact (Option.some.inj hpar).symm
        · simp at hpar
      subst hast
      simp only [hpar] at hg
      rcases List.mem_append.mp hg with hg | hg
      · left
        rw [List.mem_flatMap] at hg
        obtain ⟨func, hf, hgf⟩ := hg
        refine ⟨func, hf, ?_⟩
        rcases List.mem_append.mp hgf with h | h <;>
          · split at h
            · simp only [List.mem_singleton] at h
              subst h
              rfl
            · simp at h
      · right
        rw [find_deep_nesting_eq, List.mem_map] at hg
        obtain ⟨p, hp, hgp⟩ := hg
        exact ⟨p, hp, by rw [← hgp]; rfl⟩

theorem check_naming_lines (t : Node) (language : String) (g : Finding)
    (hg : g ∈ check_naming_conventions (some t) language) :
    ∃ fsig ∈ extract_functions t, g.line_number = fsig.start_line := by
  unfold check_naming_conventions at hg
  cases hpar : parse (some t) language with
  | none => simp only [hpar] at hg; simp at hg
  | some ast =>
      have hast : ast = t := by
        unfold parse at hpar
        split at hpar
        · exact (Option.some.inj hpar).symm
        · simp at hpar
      subst hast
      simp only [hpar] at hg
      rw [List.mem_flatMap] at hg
      obtain ⟨func, hf, hgf⟩ := hg
      refine ⟨func, hf, ?_⟩
      split at hgf
      · simp at hgf
      · split at hgf
        · split at hgf
          · simp only [List.mem_singleton] at hgf
            subst hgf
            rfl
          · simp at hgf
        · split at hgf
          · split at hgf
            · simp only [List.mem_singleton] at hgf
              subst hgf
              rfl
            · simp at hgf
          · simp at hgf

theorem check_complexity_lines (t : Node) (language : String) (g : Finding)
    (hg : g ∈ check_complexity (some t) language) :
    ∃ fsig ∈ extract_functions t, g.line_number = fsig.start_line := by
  unfold check_complexity at hg
  cases hpar : parse (some t) language with
  | none => simp only [hpar] at hg; simp at hg
  | some ast =>
      have hast : ast = t := by
        unfold parse at hpar
        split at hpar
        · exact (Option.some.inj hpar).symm
        · simp at hpar
      subst hast
      simp only [hpar] at hg
      rw [List.mem_flatMap] at hg
      obtain ⟨func, hf, hgf⟩ := hg
      refine ⟨func, hf, ?_⟩
      split at hgf
      · simp only [List.mem_singleton] at hgf
        subst hgf
        rfl
      · simp at hgf

theorem check_secrets_line_bounds (code : String) (g : Finding)
    (hg : g ∈ check_hardcoded_secrets code) :
    1 ≤ g.line_number ∧ g.line_number ≤ (codeLines code).length := by
  unfold check_hardcoded_secrets at hg
  rw [List.mem_flatMap] at hg
  obtain ⟨p, hp, hgp⟩ := hg
  obtain ⟨j, l⟩ := p
  rw [mem_enumFrom_iff] at hp
  obtain ⟨hj, hget⟩ := hp
  have hlen : j - 1 < (codeLines code).length := by
    rcases List.getElem?_eq_some_iff.mp hget with ⟨hlt, -⟩
    exact hlt
  rw [List.mem_flatMap] at hgp
  obtain ⟨pat, hpat, hgpat⟩ := hgp
  have hline : g.line_number = j := by
    split at hgpat
    · simp only [List.mem_singleton] at hgpat
      subst hgpat
      rfl
    · simp at hgpat
  rw [hline]
  omega

theorem check_sql_line_bounds (code : String) (g : Finding)
    (hg : g ∈ check_sql_injection code) :
    1 ≤ g.line_number ∧ g.line_number ≤ (codeLines code).length := by
  unfold check_sql_injection at hg
  rw [List.mem_flatMap] at hg
  obtain ⟨p, hp, hgp⟩ := hg
  obtain ⟨j, l⟩ := p
  rw [mem_enumFrom_iff] at hp
  obtain ⟨hj, hget⟩ := hp
  have hlen : j - 1 < (codeLines code).length := by
    rcases List.getElem?_eq_some_iff.mp hget with ⟨hlt, -⟩
    exact hlt
  have hline : g.line_number = j := by
    split at hgp
    · simp only [List.mem_singleton] at hgp
      subst hgp
      rfl
    · simp at hgp
  rw [hline]
  omega

/-- C8: over any tree whose node spans lie within the source text (the
guarantee of the external parser, `SpanWF`), every extracted
FunctionSignature and ClassSignature satisfies
1 ≤ start_line ≤ end_line ≤ line count, and every Finding produced by the
analyzers carries a line number within the same bounds. -/
theorem signatures_and_findings_in_bounds (code : String) (t : Node) (language : String)
    (h : SpanWF t (codeLines code).length) :
    (∀ fsig ∈ extract_functions t,
      1 ≤ fsig.start_line ∧ fsig.start_line ≤ fsig.end_line ∧
        fsig.end_line ≤ (codeLines code).length) ∧
    (∀ csig ∈ extract_classes t,
      1 ≤ csig.start_line ∧ csig.start_line ≤ csig.end_line ∧
        csig.end_line ≤ (codeLines code).length) ∧
    (∀ g ∈ check_code_smells (some t) language,
      1 ≤ g.line_number ∧ g.line_number ≤ (codeLines code).length) ∧
    (∀ g ∈ check_naming_conventions (some t) language,
      1 ≤ g.line_number ∧ g.line_number ≤ (codeLines code).length) ∧
    (∀ g ∈ check_complexity (some t) language,
      1 ≤ g.line_number ∧ g.line_number ≤ (codeLines code).length) ∧
    (∀ g ∈ check_hardcoded_secrets code,
      1 ≤ g.line_number ∧ g.line_number ≤ (codeLines code).length) ∧
    (∀ g ∈ check_sql_injection code,
      1 ≤ g.line_number ∧ g.line_number ≤ (codeLines code).length) := by
  have hfunc : ∀ fsig ∈ extract_functions t,
      1 ≤ fsig.start_line ∧ fsig.start_line ≤ fsig.end_line ∧
        fsig.end_line ≤ (codeLines code).length := by
    intro fsig hf
    obtain ⟨m, hm, rfl⟩ := extract_functions_from_nodes t fsig hf
    obtain ⟨h1, h2⟩ := h m hm
    simp only [functionSigOf]
    omega
  refine ⟨hfunc, ?_, ?_, ?_, ?_, ?_, ?_⟩
  · intro csig hc
    obtain ⟨m, hm, rfl⟩ := extract_classes_from_nodes t csig hc
    obtain ⟨h1, h2⟩ := h m hm
    simp only [classSigOf]
    omega
  · intro g hg
    rcases check_code_smells_lines t language g hg with ⟨fsig, hf, hline⟩ | ⟨p, hp, hline⟩
    · have := hfunc fsig hf
      omega
    · have hmem := nestingLevels_fst_mem t 0 p ((deepRoots_mem t 0 p hp).1)
      obtain ⟨h1, h2⟩ := h p.1 hmem
      omega
  · intro g hg
    obtain ⟨fsig, hf, hline⟩ := check_naming_lines t language g hg
    have := hfunc fsig hf
    omega
  · intro g hg
    obtain ⟨fsig, hf, hline⟩ := check_complexity_lines t language g hg
    have := hfunc fsig hf
    omega
  · exact check_secrets_line_bounds code
  · exact check_sql_line_bounds code

/-- Witness for C8 at `camelModule` over its two-line source text. -/
theorem signatures_and_findings_in_bounds_witness :
    SpanWF camelModule (codeLines "def myFunction():\n    pass").length ∧
    (∀ fsig ∈ extract_functions camelModule,
      1 ≤ fsig.start_line ∧ fsig.start_line ≤ fsig.end_line ∧
        fsig.end_line ≤ (codeLines "def myFunction():\n    pass").length) := by
  have hwf : SpanWF camelModule (codeLines "def myFunction():\n    pass").length := by
    simp only [SpanWF]
    decide
  exact ⟨hwf,
    (signatures_and_findings_in_bounds "def myFunction():\n    pass" camelModule "python" hwf).1⟩
